import Mathlib

/-!
A shallow embedding of the `secret-sharing-schemes` Rust crate
(`polynomial.rs`, `shamir_secret_sharing.rs`, `pedersen_vss.rs`,
`pedersen_dvss.rs`) and proofs about it.

Modelling conventions:
* The scalar field `F_q` (amcl `FieldElement`) is `ZMod q`; `FieldElement::from(x as u64)`
  is the natural-number cast, `inverse_mut` is `Inv.inv` (`ZMod.inv`).
* The commitment group (amcl `G1`) is an additive commutative group `G` with a
  `ZMod q`-scalar action (`Module (ZMod q) G`); `binary_scalar_mul` and
  multi-scalar multiplication are sums of scalar actions.
* A Rust `HashMap<usize, V>` is an association list `List (ℕ × V)` with pairwise
  distinct keys; the list order is the (arbitrary, unspecified) iteration order
  of the map.  `lk` is `HashMap::get`, `insertKV` is `HashMap::insert`.
* Panics (failed `assert!`, indexing a missing key, `unwrap`) are modelled by
  `Option`: `none` is a panic.
* Random sampling (`Polynomial::random`) is modelled by passing the sampled
  polynomial as an explicit argument; theorems quantify over it.
-/

/-- Mathlib's polynomials over `ZMod q` (used to state interpolation facts;
the crate's own coefficient-list polynomials are `SecretSharing.Polynomial`). -/
abbrev FqPoly (q : ℕ) := Polynomial (ZMod q)

namespace SecretSharing

/-- `HashMap::get` on the association-list model of a `HashMap<usize, V>`. -/
def lk {α : Type} : List (ℕ × α) → ℕ → Option α
  | [], _ => none
  | kv :: rest, k => if kv.1 = k then some kv.2 else lk rest k

/-- `HashMap::insert`: replace the binding if the key is present, else append. -/
def insertKV {α : Type} : List (ℕ × α) → ℕ → α → List (ℕ × α)
  | [], k, v => [(k, v)]
  | kv :: rest, k, v => if kv.1 = k then (k, v) :: rest else kv :: insertKV rest k v

/-- The crate's `Polynomial`: a coefficient vector over `F_q`, lowest degree first.
`Polynomial::random(d)` yields such a vector of length `d + 1`. -/
structure Polynomial (q : ℕ) where
  coeffs : List (ZMod q)

/-- `Polynomial::degree`: `self.0.len() - 1`. -/
def Polynomial.degree {q : ℕ} (p : Polynomial q) : ℕ := p.coeffs.length - 1

/-- amcl's `FieldElementVector::new_vandermonde_vector(x, n) = [1, x, x², …, x^(n-1)]`. -/
def vandermonde {q : ℕ} (x : ZMod q) (n : ℕ) : List (ZMod q) :=
  (List.range n).map (fun i => x ^ i)

/-- amcl's `FieldElementVector::inner_product` (the crate only calls it on vectors
of equal length, where it cannot fail). -/
def inner_product {q : ℕ} (a b : List (ZMod q)) : ZMod q :=
  ((a.zip b).map (fun t => t.1 * t.2)).sum

/-- `Polynomial::eval`: the constant coefficient at `x = 0`, otherwise the inner
product of the coefficients with the Vandermonde vector `[1, x, …, x^degree]`. -/
def Polynomial.eval {q : ℕ} (p : Polynomial q) (x : ZMod q) : ZMod q :=
  if x = 0 then p.coeffs.headI
  else inner_product p.coeffs (vandermonde x (p.degree + 1))

/-- `Polynomial::lagrange_basis_at_0`: iterate over the identifiers, skipping
`x = i`, accumulating `numerator = ∏ x` and `denominator = ∏ (x + (-i))`;
finally invert the denominator and return `numerator * denominator⁻¹`.
The list argument is the iteration sequence of the Rust `HashSet`. -/
def Polynomial.lagrange_basis_at_0 (q : ℕ) (x_coords : List ℕ) (i : ℕ) : ZMod q :=
  let neg_i : ZMod q := -(i : ZMod q)
  let nd := x_coords.foldl
    (fun (nd : ZMod q × ZMod q) x =>
      if x = i then nd
      else (nd.1 * (x : ZMod q), nd.2 * ((x : ZMod q) + neg_i)))
    (1, 1)
  nd.1 * nd.2⁻¹

/-- `get_shared_secret_with_polynomial`, with the sampled random polynomial passed
explicitly: `secret = P(0)`, `shares = {i ↦ P(i) | i ∈ 1..=total}`. -/
def get_shared_secret_with_polynomial {q : ℕ} (threshold total : ℕ)
    (random_poly : Polynomial q) :
    ZMod q × List (ℕ × ZMod q) × Polynomial q :=
  let _ := threshold
  let secret := random_poly.eval 0
  let shares := (List.range' 1 total).map (fun x => (x, random_poly.eval ((x : ℕ) : ZMod q)))
  (secret, shares, random_poly)

/-- `get_shared_secret`: wrapper discarding the polynomial. -/
def get_shared_secret {q : ℕ} (threshold total : ℕ) (random_poly : Polynomial q) :
    ZMod q × List (ℕ × ZMod q) :=
  let r := get_shared_secret_with_polynomial threshold total random_poly
  (r.1, r.2.1)

/-- `reconstruct_secret`: assert `|shares| ≥ threshold`; collect the identifiers of
the first `threshold` entries in iteration order; sum `λ_id * shares[id]` over them.
`none` models the failed assert (the inner `unwrap` cannot fail: every collected
identifier is a key of `shares`). -/
def reconstruct_secret {q : ℕ} (threshold : ℕ) (shares : List (ℕ × ZMod q)) :
    Option (ZMod q) :=
  if shares.length < threshold then none
  else
    let share_ids := (shares.take threshold).map Prod.fst
    share_ids.foldlM
      (fun secret id =>
        (lk shares id).map
          (fun share => secret + Polynomial.lagrange_basis_at_0 q share_ids id * share))
      0

section PedersenGroup

variable {q : ℕ} {G : Type} [AddCommGroup G] [Module (ZMod q) G] [DecidableEq G]

/-- amcl's `G1::binary_scalar_mul(h, a, b) = g^a · h^b` (written additively). -/
def binary_scalar_mul (g h : G) (a b : ZMod q) : G := a • g + b • h

/-- amcl's `G1Vector::multi_scalar_mul_var_time`: `∑ scalarᵢ • baseᵢ`; fails
(`unwrap` panic) when the two vectors have different lengths. -/
def multi_scalar_mul_var_time (bases : List G) (scalars : List (ZMod q)) : Option G :=
  if bases.length ≠ scalars.length then none
  else some (((scalars.zip bases).map (fun t => t.1 • t.2)).sum)

/-- `PedersenVSS::deal`, with the two sampled polynomials passed explicitly: run
Shamir twice, then commit to each coefficient pair as `C_i = g^{F_i} · h^{G_i}`.
(`deal` is only ever called with the freshly sampled degree-`threshold - 1`
polynomials, so the coefficient indexing `coefficients()[i]`, `i < threshold`,
cannot panic; `getD` is its value under that invariant.) -/
def PedersenVSS.deal (threshold total : ℕ) (g h : G) (s_poly t_poly : Polynomial q) :
    ZMod q × ZMod q × List (ℕ × G) × List (ℕ × ZMod q) × List (ℕ × ZMod q) :=
  let rs := get_shared_secret_with_polynomial threshold total s_poly
  let rt := get_shared_secret_with_polynomial threshold total t_poly
  let commitment_coeffs := (List.range threshold).map
    (fun i => (i, binary_scalar_mul g h (rs.2.2.coeffs.getD i 0) (rt.2.2.coeffs.getD i 0)))
  (rs.1, rt.1, commitment_coeffs, rs.2.1, rt.2.1)

/-- `PedersenVSS::verify_share`: assert `|commitment_coeffs| ≥ threshold`; build
the exponent vector `[1, id, …, id^{threshold-1}, s_i, t_i]`; push the commitments
`commitment_coeffs[&0] … commitment_coeffs[&threshold-1]` (indexing a missing key
panics: `none`) and then `-g, -h` as bases; test the single multi-scalar
multiplication for the group identity. -/
def PedersenVSS.verify_share (threshold id : ℕ) (share : ZMod q × ZMod q)
    (commitment_coeffs : List (ℕ × G)) (g h : G) : Option Bool :=
  if commitment_coeffs.length < threshold then none
  else
    let exp := vandermonde ((id : ZMod q)) threshold ++ [share.1, share.2]
    do
    let bases ← (List.range threshold).foldlM
      (fun acc i => (lk commitment_coeffs i).map (fun c => acc ++ [c])) ([] : List G)
    let r ← multi_scalar_mul_var_time (bases ++ [-g, -h]) exp
    pure (decide (r = 0))

/-- The crate's `PedersenDVSSParticipant` state. -/
structure PedersenDVSSParticipant (q : ℕ) (G : Type) where
  id : ℕ
  secret : ZMod q
  comm_coeffs : List (ℕ × G)
  s_shares : List (ℕ × ZMod q)
  t_shares : List (ℕ × ZMod q)
  all_comm_coeffs : List (ℕ × List (ℕ × G))
  all_shares : List (ℕ × (ZMod q × ZMod q))
  final_comm_coeffs : List (ℕ × G)
  secret_share : ZMod q

/-- `PedersenDVSSParticipant::new` (the dealt polynomials passed explicitly):
store the own dealing output; the empty maps; `secret_share = FieldElement::new()`,
which is the zero scalar. -/
def PedersenDVSSParticipant.new (id threshold total : ℕ) (g h : G)
    (s_poly t_poly : Polynomial q) : PedersenDVSSParticipant q G :=
  let r := PedersenVSS.deal threshold total g h s_poly t_poly
  { id := id
    secret := r.1
    comm_coeffs := r.2.2.1
    s_shares := r.2.2.2.1
    t_shares := r.2.2.2.2
    all_comm_coeffs := []
    all_shares := []
    final_comm_coeffs := []
    secret_share := 0 }

/-- `PedersenDVSSParticipant::received_share`: assert `sender_id ≤ total`, no
duplicate sender, and that the share verifies; then store the commitment vector
and the share pair.  `none` models the panics of the failed asserts. -/
def PedersenDVSSParticipant.received_share (p : PedersenDVSSParticipant q G)
    (sender_id : ℕ) (comm_coeffs : List (ℕ × G)) (share : ZMod q × ZMod q)
    (threshold total : ℕ) (g h : G) : Option (PedersenDVSSParticipant q G) :=
  if ¬ sender_id ≤ total then none
  else if (lk p.all_comm_coeffs sender_id).isSome then none
  else if (lk p.all_shares sender_id).isSome then none
  else do
    let ok ← PedersenVSS.verify_share threshold p.id share comm_coeffs g h
    if ok then
      pure { p with
        all_comm_coeffs := insertKV p.all_comm_coeffs sender_id comm_coeffs
        all_shares := insertKV p.all_shares sender_id share }
    else none

/-- `PedersenDVSSParticipant::compute_final_comm_coeffs_and_shares`: assert both
received maps hold `total - 1` entries; for each coefficient index sum the own
and all peer commitments (`for j in 1..=total`); sum the own and all peer share
pairs; assert the aggregate verifies; store the final commitments and
`secret_share`.  `none` models the panics (failed asserts, missing-key lookups). -/
def PedersenDVSSParticipant.compute_final_comm_coeffs_and_shares
    (p : PedersenDVSSParticipant q G) (threshold total : ℕ) (g h : G) :
    Option (PedersenDVSSParticipant q G) :=
  if p.all_comm_coeffs.length ≠ total - 1 then none
  else if p.all_shares.length ≠ total - 1 then none
  else do
    let final_cc ← (List.range threshold).foldlM
      (fun acc i => do
        let cm ← (List.range total).foldlM
          (fun (cm : G) j1 =>
            if j1 + 1 ≠ p.id then do
              let peer ← lk p.all_comm_coeffs (j1 + 1)
              let c ← lk peer i
              pure (cm + c)
            else do
              let c ← lk p.comm_coeffs i
              pure (cm + c))
          0
        pure (insertKV acc i cm))
      p.final_comm_coeffs
    let fin ← (List.range total).foldlM
      (fun (st : ZMod q × ZMod q) j1 =>
        if j1 + 1 ≠ p.id then do
          let sh ← lk p.all_shares (j1 + 1)
          pure (st.1 + sh.1, st.2 + sh.2)
        else do
          let s ← lk p.s_shares (j1 + 1)
          let t ← lk p.t_shares (j1 + 1)
          pure (st.1 + s, st.2 + t))
      (0, 0)
    let ok ← PedersenVSS.verify_share threshold p.id (fin.1, fin.2) final_cc g h
    if ok then
      pure { p with final_comm_coeffs := final_cc, secret_share := fin.1 }
    else none

end PedersenGroup

/-- The selection rule asserted by the specification for `reconstruct_secret`
(stated for refinement comparison only, NOT translated from the source):
interpolate over the set `X` of the `threshold` SMALLEST identifiers
("first k in iteration order, stabilized by sorted identifiers"). -/
def reconstruct_secret_smallest_ids (q : ℕ) (threshold : ℕ)
    (shares : List (ℕ × ZMod q)) : Option (ZMod q) :=
  if shares.length < threshold then none
  else
    let share_ids := (List.insertionSort (· ≤ ·) (shares.map Prod.fst)).take threshold
    some ((share_ids.map (fun id =>
      Polynomial.lagrange_basis_at_0 q share_ids id * (lk shares id).getD 0)).sum)

instance : Fact (Nat.Prime 11) := ⟨by norm_num⟩

/-! Concrete data used to evaluate the development on small inputs
(`F_q = ZMod 11`, the commitment group also `ZMod 11` with `g = 1`, `h = 0`). -/

/-- A participant state (id 1, k = 1, n = 2) that has accepted the single peer
contribution of participant 2. -/
def pW4 : PedersenDVSSParticipant 11 (ZMod 11) :=
  ⟨1, 0, [(0, 4)], [(1, 4)], [(1, 0)], [(2, [(0, 5)])], [(2, (5, 0))], [], 0⟩

/-- A freshly dealt participant state (id 1) that has accepted nothing yet. -/
def pW5 : PedersenDVSSParticipant 11 (ZMod 11) :=
  ⟨1, 0, [(0, 4)], [(1, 4)], [(1, 0)], [], [], [], 0⟩

/-- Two valid peer contributions for `pW5` (senders 2 and 3), in one order … -/
def L5a : List (ℕ × List (ℕ × ZMod 11) × (ZMod 11 × ZMod 11)) :=
  [(2, [(0, 5)], (5, 0)), (3, [(0, 6)], (6, 0))]

/-- … and in the swapped order. -/
def L5b : List (ℕ × List (ℕ × ZMod 11) × (ZMod 11 × ZMod 11)) :=
  [(3, [(0, 6)], (6, 0)), (2, [(0, 5)], (5, 0))]

/-! ### Association-list lemmas -/

theorem lk_eq_none_iff {α : Type} (l : List (ℕ × α)) (j : ℕ) :
    lk l j = none ↔ j ∉ l.map Prod.fst := by
  induction l with
  | nil => simp [lk]
  | cons kv rest ih =>
    by_cases h : kv.1 = j <;> simp [lk, h, ih, Ne.symm]

theorem lk_isSome_iff_mem {α : Type} (l : List (ℕ × α)) (j : ℕ) :
    (lk l j).isSome ↔ j ∈ l.map Prod.fst := by
  cases h : lk l j with
  | none => exact iff_of_false (by simp) ((lk_eq_none_iff l j).mp h)
  | some v =>
    refine iff_of_true (by simp) ?_
    by_contra hmem
    rw [← lk_eq_none_iff] at hmem
    rw [h] at hmem
    exact Option.noConfusion hmem

theorem lk_append_of_none {α : Type} {l₁ : List (ℕ × α)} (l₂ : List (ℕ × α)) {j : ℕ}
    (h : lk l₁ j = none) : lk (l₁ ++ l₂) j = lk l₂ j := by
  induction l₁ with
  | nil => simp
  | cons kv rest ih =>
    by_cases hk : kv.1 = j
    · simp [lk, hk] at h
    · simp only [lk, hk, if_false] at h ⊢
      exact ih h

theorem lk_append_of_some {α : Type} {l₁ : List (ℕ × α)} (l₂ : List (ℕ × α)) {j : ℕ} {v : α}
    (h : lk l₁ j = some v) : lk (l₁ ++ l₂) j = some v := by
  induction l₁ with
  | nil => simp [lk] at h
  | cons kv rest ih =>
    by_cases hk : kv.1 = j <;> simp only [lk, hk, if_true, if_false, List.cons_append] at h ⊢
    · exact h
    · exact ih h

theorem lk_map_pair_of_mem {α : Type} {l : List ℕ} (f : ℕ → α) {j : ℕ}
    (hnd : l.Nodup) (hj : j ∈ l) :
    lk (l.map (fun i => (i, f i))) j = some (f j) := by
  induction l with
  | nil => simp at hj
  | cons a rest ih =>
    rcases List.nodup_cons.mp hnd with ⟨hna, hnd'⟩
    rcases List.mem_cons.mp hj with h | h
    · simp [lk, h]
    · have haj : a ≠ j := fun hc => hna (hc ▸ h)
      simp only [List.map_cons, lk, haj, if_false]
      exact ih hnd' h

theorem lk_map_pair_of_not_mem {α : Type} {l : List ℕ} (f : ℕ → α) {j : ℕ}
    (hj : j ∉ l) : lk (l.map (fun i => (i, f i))) j = none := by
  rw [lk_eq_none_iff]
  simpa using hj

theorem insertKV_of_none {α : Type} {l : List (ℕ × α)} {j : ℕ} (v : α)
    (h : lk l j = none) : insertKV l j v = l ++ [(j, v)] := by
  induction l with
  | nil => simp [insertKV]
  | cons kv rest ih =>
    by_cases hk : kv.1 = j
    · simp [lk, hk] at h
    · simp only [lk, hk, if_false] at h
      simp [insertKV, hk, ih h]

theorem lk_of_perm {α : Type} {l₁ l₂ : List (ℕ × α)} (hp : l₁.Perm l₂)
    (hnd : (l₁.map Prod.fst).Nodup) (j : ℕ) : lk l₁ j = lk l₂ j := by
  induction hp with
  | nil => rfl
  | cons x _ ih =>
    simp only [List.map_cons, List.nodup_cons] at hnd
    simp only [lk, ih hnd.2]
  | swap x y l =>
    simp only [List.map_cons, List.nodup_cons, List.mem_cons, not_or] at hnd
    have hxy : y.1 ≠ x.1 := hnd.1.1
    by_cases hx : x.1 = j <;> by_cases hy : y.1 = j <;>
      simp_all [lk]
  | trans h₁₂ _ ih₁₂ ih₂₃ =>
    rename_i l₁' l₂' l₃' _
    have hnd₂ : (l₂'.map Prod.fst).Nodup := ((h₁₂.map Prod.fst).nodup_iff).mp hnd
    exact (ih₁₂ hnd).trans (ih₂₃ hnd₂)

/-! ### Fold lemmas -/

theorem foldlM_eq_some {α β : Type} (f : β → α → Option β) (g : β → α → β)
    (l : List α) (h : ∀ b a, a ∈ l → f b a = some (g b a)) (b : β) :
    l.foldlM f b = some (l.foldl g b) := by
  induction l generalizing b with
  | nil => rfl
  | cons x rest ih =>
    rw [List.foldlM_cons, h b x (List.mem_cons_self x rest), List.foldl_cons]
    exact ih (fun b' a ha => h b' a (List.mem_cons_of_mem x ha)) (g b x)

theorem foldl_add_eq_sum {α M : Type} [AddCommMonoid M] (l : List α) (c : α → M) (a : M) :
    l.foldl (fun acc x => acc + c x) a = a + (l.map c).sum := by
  induction l generalizing a with
  | nil => simp
  | cons x rest ih => simp [ih, add_assoc]

theorem foldl_pair_add_eq_sum {α M N : Type} [AddCommMonoid M] [AddCommMonoid N]
    (l : List α) (ca : α → M) (cb : α → N) (a : M) (b : N) :
    l.foldl (fun st x => (st.1 + ca x, st.2 + cb x)) (a, b)
      = (a + (l.map ca).sum, b + (l.map cb).sum) := by
  induction l generalizing a b with
  | nil => simp
  | cons x rest ih => simp [ih, add_assoc]

theorem list_map_range_sum {M : Type} [AddCommMonoid M] (f : ℕ → M) (n : ℕ) :
    ((List.range n).map f).sum = ∑ i in Finset.range n, f i := by
  induction n with
  | zero => simp
  | succ n ih =>
    rw [List.range_succ, Finset.sum_range_succ, List.map_append, List.sum_append, ih]
    simp

theorem foldlM_push_eq_some {β : Type} (f : ℕ → Option β) (g : ℕ → β) (l : List ℕ)
    (h : ∀ i ∈ l, f i = some (g i)) (acc : List β) :
    l.foldlM (fun acc i => (f i).map (fun c => acc ++ [c])) acc = some (acc ++ l.map g) := by
  induction l generalizing acc with
  | nil => simp
  | cons x rest ih =>
    rw [List.foldlM_cons, h x (List.mem_cons_self x rest)]
    show rest.foldlM _ (acc ++ [g x]) = _
    rw [ih (fun i hi => h i (List.mem_cons_of_mem x hi))]
    simp

theorem foldlM_push_eq_none_iff {β : Type} (f : ℕ → Option β) (l : List ℕ) (acc : List β) :
    l.foldlM (fun acc i => (f i).map (fun c => acc ++ [c])) acc = none
      ↔ ∃ i ∈ l, f i = none := by
  induction l generalizing acc with
  | nil => simp
  | cons x rest ih =>
    rw [List.foldlM_cons]
    cases hx : f x with
    | none => exact iff_of_true rfl ⟨x, List.mem_cons_self x rest, hx⟩
    | some v =>
      have hstep : ((some v).map (fun c => acc ++ [c]) >>= fun init =>
          rest.foldlM (fun acc i => (f i).map (fun c => acc ++ [c])) init)
          = rest.foldlM (fun acc i => (f i).map (fun c => acc ++ [c])) (acc ++ [v]) := rfl
      rw [hstep, ih (acc ++ [v])]
      constructor
      · rintro ⟨i, hi, hfi⟩
        exact ⟨i, List.mem_cons_of_mem x hi, hfi⟩
      · rintro ⟨i, hi, hfi⟩
        rcases List.mem_cons.mp hi with hix | hir
        · rw [hix, hx] at hfi
          exact absurd hfi (Option.noConfusion)
        · exact ⟨i, hir, hfi⟩

/-! ### Polynomial evaluation bridges -/

theorem zip_map_range_sum {q : ℕ} (l : List (ZMod q)) (g : ℕ → ZMod q) :
    ((l.zip ((List.range l.length).map g)).map (fun t => t.1 * t.2)).sum
      = ∑ j in Finset.range l.length, l.getD j 0 * g j := by
  induction l generalizing g with
  | nil => simp
  | cons a rest ih =>
    rw [List.length_cons, List.range_succ_eq_map, List.map_cons, List.map_map,
      List.zip_cons_cons, List.map_cons, List.sum_cons, ih (g ∘ Nat.succ),
      Finset.sum_range_succ']
    simp only [List.getD_cons_succ, List.getD_cons_zero, Function.comp, pow_zero,
      Nat.succ_eq_add_one]
    exact add_comm _ _

theorem inner_product_vandermonde {q : ℕ} (l : List (ZMod q)) (x : ZMod q) :
    inner_product l (vandermonde x l.length)
      = ∑ j in Finset.range l.length, l.getD j 0 * x ^ j :=
  zip_map_range_sum l (fun j => x ^ j)

theorem Polynomial.eval_eq_sum {q : ℕ} (p : Polynomial q) (hp : p.coeffs ≠ []) (x : ZMod q) :
    p.eval x = ∑ j in Finset.range p.coeffs.length, p.coeffs.getD j 0 * x ^ j := by
  rcases p with ⟨coeffs⟩
  cases coeffs with
  | nil => exact absurd rfl hp
  | cons a rest =>
    by_cases hx : x = 0
    · subst hx
      simp only [Polynomial.eval, if_pos rfl, List.headI]
      rw [List.length_cons, Finset.sum_range_succ']
      simp [zero_pow]
    · simp only [Polynomial.eval, if_neg hx, Polynomial.degree]
      have hlen : (a :: rest).length - 1 + 1 = (a :: rest).length := by simp
      rw [hlen, inner_product_vandermonde]

/-! ### Lagrange basis as a product -/

theorem lagrange_foldl_eq_prod {q : ℕ} (X : List ℕ) (i : ℕ) (a b : ZMod q) :
    X.foldl (fun (nd : ZMod q × ZMod q) x =>
        if x = i then nd
        else (nd.1 * (x : ZMod q), nd.2 * ((x : ZMod q) + -(i : ZMod q)))) (a, b)
      = (a * ((X.filter (fun x => x ≠ i)).map (fun x : ℕ => (x : ZMod q))).prod,
         b * ((X.filter (fun x => x ≠ i)).map
            (fun x : ℕ => (x : ZMod q) - (i : ZMod q))).prod) := by
  induction X generalizing a b with
  | nil => simp
  | cons x rest ih =>
    by_cases hx : x = i
    · rw [List.foldl_cons, if_pos hx, ih]
      simp [List.filter_cons, hx]
    · rw [List.foldl_cons, if_neg hx, ih]
      simp [List.filter_cons, hx, mul_assoc, sub_eq_add_neg]

theorem lagrange_basis_at_0_eq_filter {q : ℕ} (X : List ℕ) (i : ℕ) :
    Polynomial.lagrange_basis_at_0 q X i
      = ((X.filter (fun x => x ≠ i)).map (fun x : ℕ => (x : ZMod q))).prod
        * (((X.filter (fun x => x ≠ i)).map
            (fun x : ℕ => (x : ZMod q) - (i : ZMod q))).prod)⁻¹ := by
  simp only [Polynomial.lagrange_basis_at_0, lagrange_foldl_eq_prod, one_mul]

theorem lagrange_basis_at_0_eq_prod {q : ℕ} (X : List ℕ) (i : ℕ) (hnd : X.Nodup) :
    Polynomial.lagrange_basis_at_0 q X i
      = (∏ x in X.toFinset.erase i, (x : ZMod q))
        * (∏ x in X.toFinset.erase i, ((x : ZMod q) - (i : ZMod q)))⁻¹ := by
  rw [lagrange_basis_at_0_eq_filter]
  have hf : (X.filter (fun x => x ≠ i)).toFinset = X.toFinset.erase i := by
    ext a
    simp [List.mem_filter, Finset.mem_erase, and_comm]
  have hndf : (X.filter (fun x => x ≠ i)).Nodup := hnd.filter _
  rw [← List.prod_toFinset (fun x : ℕ => (x : ZMod q)) hndf,
    ← List.prod_toFinset (fun x : ℕ => (x : ZMod q) - (i : ZMod q)) hndf, hf]

/-! ### Interpolation at zero (bridge to Mathlib's Lagrange interpolation) -/

theorem listPoly_eval {q : ℕ} (c : List (ZMod q)) (x : ZMod q) :
    (∑ j in Finset.range c.length, Polynomial.C (c.getD j 0) * Polynomial.X ^ j).eval x
      = ∑ j in Finset.range c.length, c.getD j 0 * x ^ j := by
  rw [Polynomial.eval_finset_sum]
  simp

theorem listPoly_degree_lt {q : ℕ} (c : List (ZMod q)) :
    (∑ j in Finset.range c.length, Polynomial.C (c.getD j 0) * Polynomial.X ^ j).degree
      < (c.length : WithBot ℕ) := by
  refine lt_of_le_of_lt (Polynomial.degree_sum_le _ _) ?_
  rw [Finset.sup_lt_iff (WithBot.bot_lt_coe _)]
  intro j hj
  refine lt_of_le_of_lt (Polynomial.degree_C_mul_X_pow_le j _) ?_
  exact_mod_cast Finset.mem_range.mp hj

theorem sum_lagrange_eval_eq_eval_zero {q : ℕ} [Fact (Nat.Prime q)] (s : Finset ℕ)
    (hq : ∀ x ∈ s, x < q) (f : FqPoly q) (hdeg : f.degree < (s.card : WithBot ℕ)) :
    ∑ i in s, (∏ x in s.erase i, ((x : ZMod q) / ((x : ZMod q) - (i : ZMod q))))
        * f.eval ((i : ℕ) : ZMod q)
      = f.eval 0 := by
  have hinj : Set.InjOn (fun n : ℕ => (n : ZMod q)) s := by
    intro a ha b hb hab
    have ha' := ZMod.val_cast_of_lt (hq a ha)
    have hb' := ZMod.val_cast_of_lt (hq b hb)
    simp only at hab
    rw [← ha', ← hb', hab]
  have hf := Lagrange.eq_interpolate hinj hdeg
  conv_rhs => rw [hf]
  rw [Lagrange.interpolate_apply, Polynomial.eval_finset_sum]
  refine Finset.sum_congr rfl (fun i hi => ?_)
  rw [Polynomial.eval_mul, Polynomial.eval_C, Lagrange.basis, Polynomial.eval_prod, mul_comm]
  congr 1
  refine Finset.prod_congr rfl (fun x hx => ?_)
  rw [Lagrange.basisDivisor, Polynomial.eval_mul, Polynomial.eval_C, Polynomial.eval_sub,
    Polynomial.eval_X, Polynomial.eval_C]
  rw [zero_sub, div_eq_mul_inv, ← neg_sub ((x : ZMod q)) ((i : ZMod q)), inv_neg]
  ring

theorem lk_mem_of_some {α : Type} {l : List (ℕ × α)} {j : ℕ} {v : α}
    (h : lk l j = some v) : (j, v) ∈ l := by
  induction l with
  | nil => exact absurd h (Option.noConfusion)
  | cons kv rest ih =>
    obtain ⟨k1, v1⟩ := kv
    by_cases hk : k1 = j
    · simp only [lk, hk, if_true, Option.some_inj] at h
      subst hk
      subst h
      exact List.mem_cons_self _ _
    · simp only [lk, hk, if_false] at h
      exact List.mem_cons_of_mem _ (ih h)

/-- What `reconstruct_secret` computes on a map with distinct keys and at least
`threshold` entries: the Lagrange-weighted sum over the identifiers of the first
`threshold` entries in iteration order. -/
theorem reconstruct_eq_sum {q : ℕ} (threshold : ℕ) (shares : List (ℕ × ZMod q))
    (hnd : (shares.map Prod.fst).Nodup) (hlen : threshold ≤ shares.length) :
    reconstruct_secret threshold shares
      = some (∑ i in ((shares.take threshold).map Prod.fst).toFinset,
          Polynomial.lagrange_basis_at_0 q ((shares.take threshold).map Prod.fst) i
            * (lk shares i).getD 0) := by
  have hids_sub : List.Sublist ((shares.take threshold).map Prod.fst) (shares.map Prod.fst) :=
    (List.take_sublist threshold shares).map Prod.fst
  have hids_nd : ((shares.take threshold).map Prod.fst).Nodup := hnd.sublist hids_sub
  unfold reconstruct_secret
  rw [if_neg (by omega)]
  set ids := (shares.take threshold).map Prod.fst with hids
  have hmem : ∀ i ∈ ids, ∃ v, lk shares i = some v := by
    intro i hi
    have : i ∈ shares.map Prod.fst := hids_sub.mem hi
    rcases Option.isSome_iff_exists.mp ((lk_isSome_iff_mem shares i).mpr this) with ⟨v, hv⟩
    exact ⟨v, hv⟩
  rw [foldlM_eq_some _
    (fun secret i => secret + Polynomial.lagrange_basis_at_0 q ids i * (lk shares i).getD 0)
    ids ?hstep 0]
  · rw [foldl_add_eq_sum, zero_add, ← List.sum_toFinset _ hids_nd]
  · intro b i hi
    rcases hmem i hi with ⟨v, hv⟩
    rw [hv]
    simp [hv, Option.getD]

theorem lagrange_basis_at_0_eq_div_prod {q : ℕ} [Fact (Nat.Prime q)]
    (X : List ℕ) (i : ℕ) (hnd : X.Nodup) :
    Polynomial.lagrange_basis_at_0 q X i
      = ∏ x in X.toFinset.erase i, ((x : ZMod q) / ((x : ZMod q) - (i : ZMod q))) := by
  rw [lagrange_basis_at_0_eq_prod X i hnd, ← Finset.prod_inv_distrib, ← Finset.prod_mul_distrib]
  exact Finset.prod_congr rfl (fun x _ => (div_eq_mul_inv _ _).symm)

/-- Claim C1 (Shamir round-trip): if `(secret, shares)` is produced by
`get_shared_secret(k, n)` with `1 ≤ k ≤ n` (and `n < q` so the identifiers are
distinct field elements), then reconstructing from ANY map `S` holding exactly
`k` of the produced shares returns `secret`. -/
theorem shamir_reconstruct_any_k_subset {q : ℕ} [Fact (Nat.Prime q)]
    (threshold total : ℕ) (hk : 1 ≤ threshold) (hkn : threshold ≤ total) (hq : total < q)
    (random_poly : Polynomial q) (hdeg : random_poly.coeffs.length = threshold)
    (S : List (ℕ × ZMod q))
    (hsub : ∀ kv ∈ S, kv ∈ (get_shared_secret threshold total random_poly).2)
    (hnd : (S.map Prod.fst).Nodup)
    (hlenS : S.length = threshold) :
    reconstruct_secret threshold S
      = some (get_shared_secret threshold total random_poly).1 := by
  have hne : random_poly.coeffs ≠ [] := by
    intro hcon
    rw [hcon] at hdeg
    simp only [List.length_nil] at hdeg
    omega
  have hentry : ∀ kv ∈ S, 1 ≤ kv.1 ∧ kv.1 ≤ total
      ∧ kv.2 = random_poly.eval ((kv.1 : ℕ) : ZMod q) := by
    intro kv hkv
    have hm := hsub kv hkv
    simp only [get_shared_secret, get_shared_secret_with_polynomial, List.mem_map] at hm
    rcases hm with ⟨x, hx, hxy⟩
    rcases List.mem_range'_1.mp hx with ⟨hx1, hx2⟩
    subst hxy
    exact ⟨hx1, by omega, rfl⟩
  have htake : S.take threshold = S := by
    rw [← hlenS]
    exact List.take_length S
  rw [reconstruct_eq_sum threshold S hnd (le_of_eq hlenS.symm), htake]
  set ids := S.map Prod.fst with hidsdef
  have hcard : ids.toFinset.card = threshold := by
    rw [List.toFinset_card_of_nodup hnd, List.length_map, hlenS]
  have hqmem : ∀ x ∈ ids.toFinset, x < q := by
    intro x hx
    rcases List.mem_map.mp (List.mem_toFinset.mp hx) with ⟨kv, hkv, hfst⟩
    have h2 := (hentry kv hkv).2.1
    omega
  have hval : ∀ i ∈ ids.toFinset, (lk S i).getD 0 = random_poly.eval ((i : ℕ) : ZMod q) := by
    intro i hi
    have himem : i ∈ ids := List.mem_toFinset.mp hi
    rcases Option.isSome_iff_exists.mp ((lk_isSome_iff_mem S i).mpr himem) with ⟨v, hv⟩
    have hkv := lk_mem_of_some hv
    rw [hv]
    simp only [Option.getD_some]
    exact (hentry _ hkv).2.2
  have hsum : ∑ i in ids.toFinset,
      Polynomial.lagrange_basis_at_0 q ids i * (lk S i).getD 0
      = random_poly.eval 0 := by
    have hstep : ∀ i ∈ ids.toFinset,
        Polynomial.lagrange_basis_at_0 q ids i * (lk S i).getD 0
        = (∏ x in ids.toFinset.erase i, ((x : ZMod q) / ((x : ZMod q) - (i : ZMod q))))
          * (∑ j in Finset.range random_poly.coeffs.length,
              Polynomial.C (random_poly.coeffs.getD j 0) * Polynomial.X ^ j).eval
              ((i : ℕ) : ZMod q) := by
      intro i hi
      rw [hval i hi, lagrange_basis_at_0_eq_div_prod ids i hnd, listPoly_eval,
        ← Polynomial.eval_eq_sum random_poly hne]
    rw [Finset.sum_congr rfl hstep,
      sum_lagrange_eval_eq_eval_zero ids.toFinset hqmem _
        (by rw [hcard, ← hdeg]; exact listPoly_degree_lt _),
      listPoly_eval, ← Polynomial.eval_eq_sum random_poly hne]
  rw [hsum]
  simp [get_shared_secret, get_shared_secret_with_polynomial]

/-- Claim C8 (Lagrange basis at 0): on a set of distinct non-zero identifiers
below `q`, `lagrange_basis_at_0(X, i)` returns `∏_{x ∈ X, x ≠ i} x / (x - i)`,
and every denominator factor `(x - i)` is non-zero in `F_q`. -/
theorem lagrange_basis_at_0_formula {q : ℕ} [Fact (Nat.Prime q)] (X : List ℕ) (i : ℕ)
    (hnd : X.Nodup) (hpos : ∀ x ∈ X, 0 < x) (hlt : ∀ x ∈ X, x < q) (hi : i ∈ X) :
    Polynomial.lagrange_basis_at_0 q X i
      = ∏ x in X.toFinset.erase i, ((x : ZMod q) / ((x : ZMod q) - (i : ZMod q)))
    ∧ ∀ x ∈ X.toFinset.erase i, ((x : ZMod q) - (i : ZMod q)) ≠ 0 := by
  constructor
  · exact lagrange_basis_at_0_eq_div_prod X i hnd
  · intro x hx
    rcases Finset.mem_erase.mp hx with ⟨hxi, hxX⟩
    have hxmem := List.mem_toFinset.mp hxX
    refine sub_ne_zero.mpr (fun hc => hxi ?_)
    have h1 := ZMod.val_cast_of_lt (hlt x hxmem)
    have h2 := ZMod.val_cast_of_lt (hlt i hi)
    rw [← h1, ← h2, hc]

/-! ### Claim C6: which shares does `reconstruct_secret` select? -/

/-- Claim C6 as stated is false: with (legal) hash-map iteration order
`[(2, 1), (1, 2)]` and `k = 1`, the code interpolates over identifier `2`
(the first in iteration order) and returns its share `1`, not over the smallest
identifier `1` with share `2` as the claim demands. -/
theorem reconstruct_not_smallest_ids_cex :
    reconstruct_secret 1 [(2, (1 : ZMod 11)), (1, (2 : ZMod 11))] = some 1
    ∧ reconstruct_secret_smallest_ids 11 1 [(2, (1 : ZMod 11)), (1, (2 : ZMod 11))] = some 2
    ∧ reconstruct_secret 1 [(2, (1 : ZMod 11)), (1, (2 : ZMod 11))]
        ≠ reconstruct_secret_smallest_ids 11 1 [(2, (1 : ZMod 11)), (1, (2 : ZMod 11))] := by
  have hinv : ((1 : ZMod 11))⁻¹ = 1 := inv_one
  have ha : reconstruct_secret 1 [(2, (1 : ZMod 11)), (1, (2 : ZMod 11))] = some 1 := by
    simp [reconstruct_secret, lk, Polynomial.lagrange_basis_at_0, List.foldlM_cons,
      List.foldlM_nil, hinv]
  have hb : reconstruct_secret_smallest_ids 11 1 [(2, (1 : ZMod 11)), (1, (2 : ZMod 11))]
      = some 2 := by
    simp [reconstruct_secret_smallest_ids, lk, Polynomial.lagrange_basis_at_0,
      List.insertionSort, List.orderedInsert, hinv]
  refine ⟨ha, hb, ?_⟩
  rw [ha, hb]
  decide

/-- Claim C6, amended: `reconstruct_secret(k, shares)` (`|shares| ≥ k`, distinct
identifiers) interpolates over the identifiers `X` of the first `k` shares in
iteration order — an arbitrary size-`k` subset, NOT necessarily the `k` smallest
identifiers — and returns `∑_{i ∈ X} lagrange_basis_at_0(X, i) * shares[i]`. -/
theorem reconstruct_first_k_formula {q : ℕ} (threshold : ℕ) (shares : List (ℕ × ZMod q))
    (hnd : (shares.map Prod.fst).Nodup) (hlen : threshold ≤ shares.length) :
    reconstruct_secret threshold shares
      = some (∑ i in ((shares.take threshold).map Prod.fst).toFinset,
          Polynomial.lagrange_basis_at_0 q ((shares.take threshold).map Prod.fst) i
            * (lk shares i).getD 0) :=
  reconstruct_eq_sum threshold shares hnd hlen

/-! ### The verification equation -/

section VerifySpec

variable {q : ℕ} {G : Type} [AddCommGroup G] [Module (ZMod q) G] [DecidableEq G]

theorem msm_vandermonde_pair (C : ℕ → G) (k : ℕ) (x s t : ZMod q) (g h : G) :
    multi_scalar_mul_var_time (((List.range k).map C) ++ [-g, -h]) (vandermonde x k ++ [s, t])
      = some ((∑ j in Finset.range k, x ^ j • C j) + (s • -g + t • -h)) := by
  unfold multi_scalar_mul_var_time vandermonde
  rw [if_neg (by simp)]
  congr 1
  rw [List.zip_append (by simp), List.map_append, List.sum_append]
  congr 1
  · rw [List.zip_map', List.map_map]
    exact list_map_range_sum _ k
  · simp

theorem verify_share_spec (threshold idx : ℕ) (s t : ZMod q) (cc : List (ℕ × G)) (g h : G)
    (C : ℕ → G) (hlen : threshold ≤ cc.length)
    (hlk : ∀ j, j < threshold → lk cc j = some (C j)) :
    PedersenVSS.verify_share threshold idx (s, t) cc g h
      = some (decide ((∑ j in Finset.range threshold, ((idx : ZMod q)) ^ j • C j)
          = s • g + t • h)) := by
  unfold PedersenVSS.verify_share
  rw [if_neg (by omega)]
  rw [foldlM_push_eq_some (fun i => lk cc i) C (List.range threshold)
    (fun i hi => hlk i (List.mem_range.mp hi)) []]
  simp only [Option.bind_eq_bind, Option.some_bind, List.nil_append]
  rw [msm_vandermonde_pair C threshold ((idx : ZMod q)) s t g h]
  simp only [Option.some_bind]
  congr 1
  apply decide_eq_decide.mpr
  rw [smul_neg, smul_neg, ← neg_add, add_neg_eq_zero]

theorem commit_eval_eq (g h : G) (F K : List (ZMod q)) (x : ZMod q) (k : ℕ) :
    ∑ j in Finset.range k, x ^ j • binary_scalar_mul g h (F.getD j 0) (K.getD j 0)
      = (∑ j in Finset.range k, F.getD j 0 * x ^ j) • g
        + (∑ j in Finset.range k, K.getD j 0 * x ^ j) • h := by
  unfold binary_scalar_mul
  rw [Finset.sum_smul, Finset.sum_smul, ← Finset.sum_add_distrib]
  apply Finset.sum_congr rfl
  intro j _
  rw [smul_add, smul_smul, smul_smul, mul_comm (x ^ j) (F.getD j 0),
    mul_comm (x ^ j) (K.getD j 0)]

/-- Claim C2 (VSS dealing validity): for `1 ≤ k ≤ n`, `deal(k, n, g, h)` returns
a commitment map with exactly `k` entries, two share maps with exactly `n`
entries, and every participant's share pair verifies against the commitments. -/
theorem pedersen_vss_deal_valid (threshold total : ℕ) (g h : G)
    (s_poly t_poly : Polynomial q) (hk : 1 ≤ threshold) (hkn : threshold ≤ total)
    (hs : s_poly.coeffs.length = threshold) (ht : t_poly.coeffs.length = threshold) :
    (PedersenVSS.deal threshold total g h s_poly t_poly).2.2.1.length = threshold
    ∧ (PedersenVSS.deal threshold total g h s_poly t_poly).2.2.2.1.length = total
    ∧ (PedersenVSS.deal threshold total g h s_poly t_poly).2.2.2.2.length = total
    ∧ ∀ i, 1 ≤ i → i ≤ total →
        ∃ si ti,
          lk (PedersenVSS.deal threshold total g h s_poly t_poly).2.2.2.1 i = some si
          ∧ lk (PedersenVSS.deal threshold total g h s_poly t_poly).2.2.2.2 i = some ti
          ∧ PedersenVSS.verify_share threshold i (si, ti)
              (PedersenVSS.deal threshold total g h s_poly t_poly).2.2.1 g h = some true := by
  have hsne : s_poly.coeffs ≠ [] := by
    intro hc
    rw [hc] at hs
    simp only [List.length_nil] at hs
    omega
  have htne : t_poly.coeffs ≠ [] := by
    intro hc
    rw [hc] at ht
    simp only [List.length_nil] at ht
    omega
  have hc : (PedersenVSS.deal threshold total g h s_poly t_poly).2.2.1
      = (List.range threshold).map (fun i =>
          (i, binary_scalar_mul g h (s_poly.coeffs.getD i 0) (t_poly.coeffs.getD i 0))) := rfl
  have hssh : (PedersenVSS.deal threshold total g h s_poly t_poly).2.2.2.1
      = (List.range' 1 total).map (fun x => (x, s_poly.eval ((x : ℕ) : ZMod q))) := rfl
  have htsh : (PedersenVSS.deal threshold total g h s_poly t_poly).2.2.2.2
      = (List.range' 1 total).map (fun x => (x, t_poly.eval ((x : ℕ) : ZMod q))) := rfl
  refine ⟨by rw [hc]; simp, by rw [hssh]; simp, by rw [htsh]; simp, ?_⟩
  intro i h1 hi
  have himem : i ∈ List.range' 1 total := List.mem_range'_1.mpr ⟨h1, by omega⟩
  refine ⟨s_poly.eval ((i : ℕ) : ZMod q), t_poly.eval ((i : ℕ) : ZMod q), ?_, ?_, ?_⟩
  · rw [hssh]
    exact lk_map_pair_of_mem _ (List.nodup_range' 1 total) himem
  · rw [htsh]
    exact lk_map_pair_of_mem _ (List.nodup_range' 1 total) himem
  · rw [hc, verify_share_spec threshold i _ _ _ g h
      (fun j => binary_scalar_mul g h (s_poly.coeffs.getD j 0) (t_poly.coeffs.getD j 0))
      (by simp)
      (fun j hj => lk_map_pair_of_mem _ (List.nodup_range threshold) (List.mem_range.mpr hj))]
    simp only [Option.some_inj, decide_eq_true_eq]
    rw [commit_eval_eq g h s_poly.coeffs t_poly.coeffs ((i : ℕ) : ZMod q) threshold,
      Polynomial.eval_eq_sum s_poly hsne, Polynomial.eval_eq_sum t_poly htne, hs, ht]

/-- Claim C3 (verification equation): with all commitment keys `0..k-1` present,
`verify_share` — computed as a single multi-scalar multiplication over the bases
`[C_0, …, C_{k-1}, -g, -h]` with exponents `[1, id, …, id^{k-1}, s, t]` followed
by an identity test — returns `true` exactly when
`∑_{j<k} id^j • C_j = s • g + t • h`. -/
theorem verify_share_equation (threshold idx : ℕ) (s t : ZMod q) (cc : List (ℕ × G))
    (g h : G) (C : ℕ → G) (hk : 1 ≤ threshold) (hlen : threshold ≤ cc.length)
    (hlk : ∀ j, j < threshold → lk cc j = some (C j)) :
    PedersenVSS.verify_share threshold idx (s, t) cc g h = some true
      ↔ ∑ j in Finset.range threshold, ((idx : ZMod q)) ^ j • C j = s • g + t • h := by
  rw [verify_share_spec threshold idx s t cc g h C hlen hlk]
  simp only [Option.some_inj, decide_eq_true_eq]

/-- Claim C9 (dense commitment keys): `verify_share` only asserts
`|commitment_coeffs| ≥ k` and then indexes the keys `0..k-1` directly; on a map
of size `≥ k` missing some key `j < k` it panics (`none`) instead of returning
`false`, and the panic is avoided exactly when every key in `0..k-1` is
present. -/
theorem verify_share_requires_dense_keys (threshold idx : ℕ) (share : ZMod q × ZMod q)
    (cc : List (ℕ × G)) (g h : G) (hlen : threshold ≤ cc.length) :
    ((∃ j, j < threshold ∧ j ∉ cc.map Prod.fst) →
        PedersenVSS.verify_share threshold idx share cc g h = none)
    ∧ (PedersenVSS.verify_share threshold idx share cc g h ≠ none
        ↔ ∀ j, j < threshold → j ∈ cc.map Prod.fst) := by
  have hmiss : ∀ j, j < threshold → j ∉ cc.map Prod.fst →
      PedersenVSS.verify_share threshold idx share cc g h = none := by
    intro j hj hmem
    unfold PedersenVSS.verify_share
    rw [if_neg (by omega)]
    have hnone : (List.range threshold).foldlM
        (fun acc i => (lk cc i).map (fun c => acc ++ [c])) ([] : List G) = none :=
      (foldlM_push_eq_none_iff _ _ _).mpr
        ⟨j, List.mem_range.mpr hj, (lk_eq_none_iff cc j).mpr hmem⟩
    rw [hnone]
    rfl
  refine ⟨fun ⟨j, hj, hmem⟩ => hmiss j hj hmem, ?_, ?_⟩
  · intro hne j hj
    by_contra hmem
    exact hne (hmiss j hj hmem)
  · intro hall
    have hsome : ∀ i ∈ List.range threshold, lk cc i = some ((lk cc i).getD 0) := by
      intro i hi
      have := (lk_isSome_iff_mem cc i).mpr (hall i (List.mem_range.mp hi))
      cases hc : lk cc i with
      | none => rw [hc] at this; exact absurd this (by simp)
      | some v => rfl
    unfold PedersenVSS.verify_share
    rw [if_neg (by omega)]
    rw [foldlM_push_eq_some (fun i => lk cc i) (fun i => (lk cc i).getD 0)
      (List.range threshold) hsome []]
    simp only [Option.bind_eq_bind, Option.some_bind, List.nil_append]
    rw [msm_vandermonde_pair (fun i => (lk cc i).getD 0) threshold
      ((idx : ZMod q)) share.1 share.2 g h]
    simp

/-! ### DVSS: share receipt -/

/-- Claim C7 (share-receipt atomicity): if verification returns `false` the call
fails and nothing is stored; if it returns `true` and `sender_id ≤ n` is not
already present, exactly the entries `all_comm_coeffs[sender_id]` and
`all_shares[sender_id]` are added and every other field is unchanged. -/
theorem received_share_atomic (p : PedersenDVSSParticipant q G)
    (sender_id : ℕ) (cc : List (ℕ × G)) (share : ZMod q × ZMod q)
    (threshold total : ℕ) (g h : G) :
    (PedersenVSS.verify_share threshold p.id share cc g h = some false →
        p.received_share sender_id cc share threshold total g h = none)
    ∧ (PedersenVSS.verify_share threshold p.id share cc g h = some true →
        sender_id ≤ total →
        lk p.all_comm_coeffs sender_id = none →
        lk p.all_shares sender_id = none →
        p.received_share sender_id cc share threshold total g h
          = some { p with
              all_comm_coeffs := p.all_comm_coeffs ++ [(sender_id, cc)]
              all_shares := p.all_shares ++ [(sender_id, share)] }) := by
  constructor
  · intro hv
    unfold PedersenDVSSParticipant.received_share
    by_cases h1 : ¬ sender_id ≤ total
    · rw [if_pos h1]
    · rw [if_neg h1]
      by_cases h2 : (lk p.all_comm_coeffs sender_id).isSome
      · rw [if_pos h2]
      · rw [if_neg h2]
        by_cases h3 : (lk p.all_shares sender_id).isSome
        · rw [if_pos h3]
        · rw [if_neg h3, hv]
          rfl
  · intro hv hle h1 h2
    unfold PedersenDVSSParticipant.received_share
    rw [if_neg (not_not_intro hle), if_neg (by rw [h1]; simp), if_neg (by rw [h2]; simp), hv]
    show some _ = some _
    rw [insertKV_of_none cc h1, insertKV_of_none share h2]

/-- Claim C10 (pre-finalization zero share): `new` initializes the public field
`secret_share` to the zero scalar (`FieldElement::new()`), and `received_share`
preserves it; reading it before the aggregation step yields zero. -/
theorem secret_share_zero_before_finalization
    (idp threshold total : ℕ) (g h : G) (s_poly t_poly : Polynomial q)
    (p p2 : PedersenDVSSParticipant q G) (sender_id : ℕ) (cc : List (ℕ × G))
    (share : ZMod q × ZMod q)
    (hrec : p.received_share sender_id cc share threshold total g h = some p2) :
    (PedersenDVSSParticipant.new idp threshold total g h s_poly t_poly :
        PedersenDVSSParticipant q G).secret_share = 0
    ∧ p2.secret_share = p.secret_share := by
  refine ⟨rfl, ?_⟩
  unfold PedersenDVSSParticipant.received_share at hrec
  by_cases h1 : ¬ sender_id ≤ total
  · rw [if_pos h1] at hrec
    exact absurd hrec (by simp)
  rw [if_neg h1] at hrec
  by_cases h2 : (lk p.all_comm_coeffs sender_id).isSome
  · rw [if_pos h2] at hrec
    exact absurd hrec (by simp)
  rw [if_neg h2] at hrec
  by_cases h3 : (lk p.all_shares sender_id).isSome
  · rw [if_pos h3] at hrec
    exact absurd hrec (by simp)
  rw [if_neg h3] at hrec
  cases hv : PedersenVSS.verify_share threshold p.id share cc g h with
  | none =>
    rw [hv] at hrec
    exact absurd hrec (by simp)
  | some ok =>
    rw [hv] at hrec
    cases ok with
    | false => exact absurd hrec (by simp)
    | true =>
      have hp2 : p2 = { p with
          all_comm_coeffs := insertKV p.all_comm_coeffs sender_id cc
          all_shares := insertKV p.all_shares sender_id share } :=
        (Option.some_inj.mp hrec).symm
      rw [hp2]

/-! ### DVSS aggregation -/

theorem foldl_insertKV_range {α : Type} (f : ℕ → α) (k : ℕ) :
    (List.range k).foldl (fun acc i => insertKV acc i (f i)) []
      = (List.range k).map (fun i => (i, f i)) := by
  induction k with
  | zero => rfl
  | succ k ih =>
    rw [List.range_succ, List.foldl_append, ih, List.map_append]
    show insertKV _ k (f k) = _
    rw [insertKV_of_none (f k) (lk_map_pair_of_not_mem _ (by simp))]
    rfl

theorem sum_range_shift_eq_icc {M : Type} [AddCommMonoid M] (f : ℕ → M) (n : ℕ) :
    ∑ j in Finset.range n, f (j + 1) = ∑ j in Finset.Icc 1 n, f j := by
  rw [← Nat.Ico_succ_right, Finset.sum_Ico_eq_sum_range]
  simp only [Nat.add_sub_cancel, Nat.succ_sub_one]
  exact Finset.sum_congr rfl (fun j _ => by rw [add_comm])

theorem sum_icc_split_id {M : Type} [AddCommMonoid M] (n idp : ℕ) (h1 : 1 ≤ idp)
    (h2 : idp ≤ n) (a : M) (f : ℕ → M) :
    ∑ j in Finset.Icc 1 n, (if j = idp then a else f j)
      = a + ∑ j in (Finset.Icc 1 n).erase idp, f j := by
  rw [← Finset.add_sum_erase _ _ (Finset.mem_Icc.mpr ⟨h1, h2⟩), if_pos rfl]
  congr 1
  exact Finset.sum_congr rfl (fun j hj => if_neg (Finset.mem_erase.mp hj).1)

/-- Claim C4 (DVSS aggregation formulas): for a participant state holding
exactly `n - 1` accepted peer contributions (each stored share verifying
against its stored commitment vector, the own dealing data verifying likewise),
`compute_final_comm_coeffs_and_shares(k, n, g, h)` succeeds, sets every
`final_comm_coeffs[j]` (`j < k`) to the group sum of the own commitment `C_j`
and every peer's commitment `C_j`, and sets `secret_share` to
`own_s_shares[self.id]` plus the sum over all peers of the received
`s`-component. -/
theorem dvss_aggregation_formulas
    (p : PedersenDVSSParticipant q G) (threshold total : ℕ) (g h : G)
    (occ : ℕ → G) (pcc : ℕ → ℕ → G) (os ot : ZMod q) (ps pt : ℕ → ZMod q)
    (hid1 : 1 ≤ p.id) (hid2 : p.id ≤ total)
    (hlen1 : p.all_comm_coeffs.length = total - 1)
    (hlen2 : p.all_shares.length = total - 1)
    (hfin : p.final_comm_coeffs = [])
    (hpeer_cc : ∀ j, 1 ≤ j → j ≤ total → j ≠ p.id →
      ∃ m, lk p.all_comm_coeffs j = some m
        ∧ ∀ i, i < threshold → lk m i = some (pcc j i))
    (hpeer_sh : ∀ j, 1 ≤ j → j ≤ total → j ≠ p.id →
      lk p.all_shares j = some (ps j, pt j))
    (hown_cc : ∀ i, i < threshold → lk p.comm_coeffs i = some (occ i))
    (hown_s : lk p.s_shares p.id = some os)
    (hown_t : lk p.t_shares p.id = some ot)
    (hver_own : ∑ i in Finset.range threshold, ((p.id : ZMod q)) ^ i • occ i
      = os • g + ot • h)
    (hver_peer : ∀ j, 1 ≤ j → j ≤ total → j ≠ p.id →
      ∑ i in Finset.range threshold, ((p.id : ZMod q)) ^ i • pcc j i
        = ps j • g + pt j • h) :
    ∃ p2, p.compute_final_comm_coeffs_and_shares threshold total g h = some p2
      ∧ (∀ i, i < threshold → lk p2.final_comm_coeffs i
          = some (occ i + ∑ j in (Finset.Icc 1 total).erase p.id, pcc j i))
      ∧ p2.secret_share = os + ∑ j in (Finset.Icc 1 total).erase p.id, ps j := by
  classical
  set ccf : ℕ → ℕ → G := fun j i => if j = p.id then occ i else pcc j i with hccf
  set sf : ℕ → ZMod q := fun j => if j = p.id then os else ps j with hsf
  set tf : ℕ → ZMod q := fun j => if j = p.id then ot else pt j with htf
  have hinner : ∀ i, i < threshold →
      (List.range total).foldlM
        (fun (cm : G) j1 =>
          if j1 + 1 ≠ p.id then do
            let peer ← lk p.all_comm_coeffs (j1 + 1)
            let c ← lk peer i
            pure (cm + c)
          else do
            let c ← lk p.comm_coeffs i
            pure (cm + c))
        0
      = some (∑ j1 in Finset.range total, ccf (j1 + 1) i) := by
    intro i hi
    have hbody : ∀ (cm : G) j1, j1 ∈ List.range total →
        (if j1 + 1 ≠ p.id then do
            let peer ← lk p.all_comm_coeffs (j1 + 1)
            let c ← lk peer i
            pure (cm + c)
          else do
            let c ← lk p.comm_coeffs i
            pure (cm + c))
        = some (cm + ccf (j1 + 1) i) := by
      intro cm j1 hj1
      have hj1' : j1 + 1 ≤ total := by
        have := List.mem_range.mp hj1
        omega
      by_cases hj : j1 + 1 = p.id
      · rw [if_neg (not_not_intro hj), hown_cc i hi]
        simp [hccf, hj]
      · rw [if_pos hj]
        rcases hpeer_cc (j1 + 1) (by omega) hj1' hj with ⟨m, hm, hmi⟩
        rw [hm]
        simp [hmi i hi, hccf, hj]
    rw [foldlM_eq_some _ _ _ hbody 0, foldl_add_eq_sum, zero_add, list_map_range_sum]
  have hshares : (List.range total).foldlM
      (fun (st : ZMod q × ZMod q) j1 =>
        if j1 + 1 ≠ p.id then do
          let sh ← lk p.all_shares (j1 + 1)
          pure (st.1 + sh.1, st.2 + sh.2)
        else do
          let s ← lk p.s_shares (j1 + 1)
          let t ← lk p.t_shares (j1 + 1)
          pure (st.1 + s, st.2 + t))
      (0, 0)
      = some (∑ j1 in Finset.range total, sf (j1 + 1),
              ∑ j1 in Finset.range total, tf (j1 + 1)) := by
    have hbody : ∀ (st : ZMod q × ZMod q) j1, j1 ∈ List.range total →
        (if j1 + 1 ≠ p.id then do
            let sh ← lk p.all_shares (j1 + 1)
            pure (st.1 + sh.1, st.2 + sh.2)
          else do
            let s ← lk p.s_shares (j1 + 1)
            let t ← lk p.t_shares (j1 + 1)
            pure (st.1 + s, st.2 + t))
        = some (st.1 + sf (j1 + 1), st.2 + tf (j1 + 1)) := by
      intro st j1 hj1
      by_cases hj : j1 + 1 = p.id
      · rw [if_neg (not_not_intro hj), hj, hown_s, hown_t]
        simp [hsf, htf, hj]
      · have hj1' : j1 + 1 ≤ total := by
          have := List.mem_range.mp hj1
          omega
        rw [if_pos hj, hpeer_sh (j1 + 1) (by omega) hj1' hj]
        simp [hsf, htf, hj]
    rw [foldlM_eq_some _ _ _ hbody (0, 0), foldl_pair_add_eq_sum, list_map_range_sum,
      list_map_range_sum]
    simp
  set cmv : ℕ → G := fun i => ∑ j1 in Finset.range total, ccf (j1 + 1) i with hcmv
  have houter : (List.range threshold).foldlM
      (fun acc i => do
        let cm ← (List.range total).foldlM
          (fun (cm : G) j1 =>
            if j1 + 1 ≠ p.id then do
              let peer ← lk p.all_comm_coeffs (j1 + 1)
              let c ← lk peer i
              pure (cm + c)
            else do
              let c ← lk p.comm_coeffs i
              pure (cm + c))
          0
        pure (insertKV acc i cm))
      p.final_comm_coeffs
      = some ((List.range threshold).map (fun i => (i, cmv i))) := by
    have hbody : ∀ (acc : List (ℕ × G)) i, i ∈ List.range threshold →
        (do
          let cm ← (List.range total).foldlM
            (fun (cm : G) j1 =>
              if j1 + 1 ≠ p.id then do
                let peer ← lk p.all_comm_coeffs (j1 + 1)
                let c ← lk peer i
                pure (cm + c)
              else do
                let c ← lk p.comm_coeffs i
                pure (cm + c))
            0
          pure (insertKV acc i cm))
        = some (insertKV acc i (cmv i)) := by
      intro acc i hi
      rw [hinner i (List.mem_range.mp hi)]
      rfl
    rw [foldlM_eq_some _ _ _ hbody p.final_comm_coeffs, hfin, foldl_insertKV_range]
  have hlk_final : ∀ j, j < threshold →
      lk ((List.range threshold).map (fun i => (i, cmv i))) j = some (cmv j) :=
    fun j hj => lk_map_pair_of_mem _ (List.nodup_range threshold) (List.mem_range.mpr hj)
  have hver : ∑ j in Finset.range threshold, ((p.id : ZMod q)) ^ j • cmv j
      = (∑ j1 in Finset.range total, sf (j1 + 1)) • g
        + (∑ j1 in Finset.range total, tf (j1 + 1)) • h := by
    have hper : ∀ j1 ∈ Finset.range total,
        ∑ i in Finset.range threshold, ((p.id : ZMod q)) ^ i • ccf (j1 + 1) i
          = sf (j1 + 1) • g + tf (j1 + 1) • h := by
      intro j1 hj1
      have hj1' : j1 + 1 ≤ total := by
        have := Finset.mem_range.mp hj1
        omega
      by_cases hj : j1 + 1 = p.id
      · simp only [hccf, hsf, htf]
        rw [hj]
        simpa using hver_own
      · simp only [hccf, hsf, htf, if_neg hj]
        exact hver_peer (j1 + 1) (by omega) hj1' hj
    calc ∑ j in Finset.range threshold, ((p.id : ZMod q)) ^ j • cmv j
        = ∑ j in Finset.range threshold, ∑ j1 in Finset.range total,
            ((p.id : ZMod q)) ^ j • ccf (j1 + 1) j := by
          refine Finset.sum_congr rfl (fun j _ => ?_)
          rw [hcmv]
          exact Finset.smul_sum
      _ = ∑ j1 in Finset.range total, ∑ j in Finset.range threshold,
            ((p.id : ZMod q)) ^ j • ccf (j1 + 1) j := Finset.sum_comm
      _ = ∑ j1 in Finset.range total, (sf (j1 + 1) • g + tf (j1 + 1) • h) :=
          Finset.sum_congr rfl hper
      _ = (∑ j1 in Finset.range total, sf (j1 + 1)) • g
            + (∑ j1 in Finset.range total, tf (j1 + 1)) • h := by
          rw [Finset.sum_add_distrib, Finset.sum_smul, Finset.sum_smul]
  refine ⟨{ p with
      final_comm_coeffs := (List.range threshold).map (fun i => (i, cmv i))
      secret_share := ∑ j1 in Finset.range total, sf (j1 + 1) }, ?_, ?_, ?_⟩
  · unfold PedersenDVSSParticipant.compute_final_comm_coeffs_and_shares
    rw [if_neg (not_not_intro hlen1), if_neg (not_not_intro hlen2), houter]
    simp only [Option.bind_eq_bind, Option.some_bind] at hshares ⊢
    rw [hshares]
    simp only [Option.some_bind]
    rw [verify_share_spec threshold p.id _ _ _ g h cmv (by simp) hlk_final,
      decide_eq_true hver]
    rfl
  · intro i hi
    rw [hlk_final i hi]
    congr 1
    have hshift : cmv i = ∑ j in Finset.Icc 1 total, ccf j i := by
      rw [hcmv]
      exact sum_range_shift_eq_icc (fun j => ccf j i) total
    rw [hshift]
    simp only [hccf]
    exact sum_icc_split_id total p.id hid1 hid2 (occ i) (fun j => pcc j i)
  · show (∑ j1 in Finset.range total, sf (j1 + 1)) = _
    rw [sum_range_shift_eq_icc (fun j => sf j) total]
    simp only [hsf]
    exact sum_icc_split_id total p.id hid1 hid2 os ps

/-! ### DVSS order independence -/

theorem omap_bind_congr {α β γ : Type} (f : β → γ) (x : Option α) (k1 k2 : α → Option β)
    (hk : ∀ a, Option.map f (k1 a) = Option.map f (k2 a)) :
    Option.map f (x >>= k1) = Option.map f (x >>= k2) := by
  cases x with
  | none => rfl
  | some a => exact hk a

/-- Folding `received_share` over a batch of fresh, individually valid
contributions succeeds and appends exactly those entries, in order. -/
theorem received_share_batch (p : PedersenDVSSParticipant q G) (threshold total : ℕ)
    (g h : G) (L : List (ℕ × List (ℕ × G) × (ZMod q × ZMod q)))
    (hnd : (L.map Prod.fst).Nodup)
    (hvalid : ∀ c ∈ L, c.1 ≤ total ∧ lk p.all_comm_coeffs c.1 = none
      ∧ lk p.all_shares c.1 = none
      ∧ PedersenVSS.verify_share threshold p.id c.2.2 c.2.1 g h = some true) :
    L.foldlM (fun st c => st.received_share c.1 c.2.1 c.2.2 threshold total g h) p
      = some { p with
          all_comm_coeffs := p.all_comm_coeffs ++ L.map (fun c => (c.1, c.2.1))
          all_shares := p.all_shares ++ L.map (fun c => (c.1, c.2.2)) } := by
  induction L generalizing p with
  | nil => simp
  | cons c rest ih =>
    obtain ⟨hle, h1, h2, hv⟩ := hvalid c (List.mem_cons_self _ _)
    rw [List.map_cons] at hnd
    rcases List.nodup_cons.mp hnd with ⟨hcr, hndr⟩
    rw [List.foldlM_cons]
    have hstep : p.received_share c.1 c.2.1 c.2.2 threshold total g h
        = some { p with
            all_comm_coeffs := p.all_comm_coeffs ++ [(c.1, c.2.1)]
            all_shares := p.all_shares ++ [(c.1, c.2.2)] } := by
      unfold PedersenDVSSParticipant.received_share
      rw [if_neg (not_not_intro hle), if_neg (by rw [h1]; simp),
        if_neg (by rw [h2]; simp), hv]
      show some _ = some _
      rw [insertKV_of_none _ h1, insertKV_of_none _ h2]
    rw [hstep]
    show rest.foldlM _ _ = _
    rw [ih _ hndr ?hval]
    case hval =>
      intro d hd
      obtain ⟨hle', h1', h2', hv'⟩ := hvalid d (List.mem_cons_of_mem c hd)
      have hne : c.1 ≠ d.1 := fun hc => hcr (hc ▸ List.mem_map_of_mem Prod.fst hd)
      refine ⟨hle', ?_, ?_, hv'⟩
      · rw [lk_append_of_none _ h1']
        simp [lk, hne]
      · rw [lk_append_of_none _ h2']
        simp [lk, hne]
    simp

/-- `compute_final_comm_coeffs_and_shares` reads the peer maps only through
key lookups and lengths: two states agreeing on those (and on the own fields)
yield the same final commitments and secret share. -/
theorem compute_final_congr (p1 p2 : PedersenDVSSParticipant q G)
    (threshold total : ℕ) (g h : G)
    (hid : p1.id = p2.id) (hcc : p1.comm_coeffs = p2.comm_coeffs)
    (hss : p1.s_shares = p2.s_shares) (hts : p1.t_shares = p2.t_shares)
    (hfin : p1.final_comm_coeffs = p2.final_comm_coeffs)
    (hlen1 : p1.all_comm_coeffs.length = p2.all_comm_coeffs.length)
    (hlen2 : p1.all_shares.length = p2.all_shares.length)
    (hlk1 : ∀ j, lk p1.all_comm_coeffs j = lk p2.all_comm_coeffs j)
    (hlk2 : ∀ j, lk p1.all_shares j = lk p2.all_shares j) :
    Option.map (fun r => (r.final_comm_coeffs, r.secret_share))
        (p1.compute_final_comm_coeffs_and_shares threshold total g h)
      = Option.map (fun r => (r.final_comm_coeffs, r.secret_share))
        (p2.compute_final_comm_coeffs_and_shares threshold total g h) := by
  have hf1 : lk p1.all_comm_coeffs = lk p2.all_comm_coeffs := funext hlk1
  have hf2 : lk p1.all_shares = lk p2.all_shares := funext hlk2
  unfold PedersenDVSSParticipant.compute_final_comm_coeffs_and_shares
  rw [hid, hcc, hss, hts, hfin, hlen1, hlen2, hf1, hf2]
  by_cases hc1 : p2.all_comm_coeffs.length ≠ total - 1
  · rw [if_pos hc1, if_pos hc1]
  rw [if_neg hc1, if_neg hc1]
  by_cases hc2 : p2.all_shares.length ≠ total - 1
  · rw [if_pos hc2, if_pos hc2]
  rw [if_neg hc2, if_neg hc2]
  refine omap_bind_congr _ _ _ _ (fun fc => ?_)
  refine omap_bind_congr _ _ _ _ (fun fin => ?_)
  refine omap_bind_congr _ _ _ _ (fun ok => ?_)
  cases ok <;> rfl

/-- Claim C5 (DVSS commutativity): receiving the same set of `n - 1` valid peer
contributions in any two orders and then aggregating yields the same
`final_comm_coeffs` and the same `secret_share`. -/
theorem dvss_order_independence (p : PedersenDVSSParticipant q G)
    (threshold total : ℕ) (g h : G)
    (L1 L2 : List (ℕ × List (ℕ × G) × (ZMod q × ZMod q)))
    (hperm : L1.Perm L2)
    (hlen : L1.length = total - 1)
    (hnd : (L1.map Prod.fst).Nodup)
    (hpnd1 : (p.all_comm_coeffs.map Prod.fst).Nodup)
    (hpnd2 : (p.all_shares.map Prod.fst).Nodup)
    (hvalid : ∀ c ∈ L1, c.1 ≤ total ∧ lk p.all_comm_coeffs c.1 = none
      ∧ lk p.all_shares c.1 = none
      ∧ PedersenVSS.verify_share threshold p.id c.2.2 c.2.1 g h = some true) :
    ∃ p1 p2,
      L1.foldlM (fun st c => st.received_share c.1 c.2.1 c.2.2 threshold total g h) p
        = some p1
      ∧ L2.foldlM (fun st c => st.received_share c.1 c.2.1 c.2.2 threshold total g h) p
        = some p2
      ∧ Option.map (fun r => (r.final_comm_coeffs, r.secret_share))
          (p1.compute_final_comm_coeffs_and_shares threshold total g h)
        = Option.map (fun r => (r.final_comm_coeffs, r.secret_share))
          (p2.compute_final_comm_coeffs_and_shares threshold total g h) := by
  have hnd2 : (L2.map Prod.fst).Nodup := ((hperm.map Prod.fst).nodup_iff).mp hnd
  have hvalid2 : ∀ c ∈ L2, c.1 ≤ total ∧ lk p.all_comm_coeffs c.1 = none
      ∧ lk p.all_shares c.1 = none
      ∧ PedersenVSS.verify_share threshold p.id c.2.2 c.2.1 g h = some true :=
    fun c hc => hvalid c (hperm.mem_iff.mpr hc)
  refine ⟨_, _, received_share_batch p threshold total g h L1 hnd hvalid,
    received_share_batch p threshold total g h L2 hnd2 hvalid2, ?_⟩
  have hkeys1 : ∀ c ∈ L1, c.1 ∉ p.all_comm_coeffs.map Prod.fst :=
    fun c hc => (lk_eq_none_iff _ _).mp (hvalid c hc).2.1
  have hkeys2 : ∀ c ∈ L1, c.1 ∉ p.all_shares.map Prod.fst :=
    fun c hc => (lk_eq_none_iff _ _).mp (hvalid c hc).2.2.1
  have key_eq1 : (L1.map (fun c => (c.1, c.2.1))).map Prod.fst = L1.map Prod.fst := by
    rw [List.map_map]
    rfl
  have key_eq2 : (L1.map (fun c => (c.1, c.2.2))).map Prod.fst = L1.map Prod.fst := by
    rw [List.map_map]
    rfl
  have hndapp1 : ((p.all_comm_coeffs ++ L1.map (fun c => (c.1, c.2.1))).map Prod.fst).Nodup := by
    rw [List.map_append, key_eq1]
    refine List.Nodup.append hpnd1 hnd ?_
    intro a ha1 ha2
    rcases List.mem_map.mp ha2 with ⟨c, hc, hca⟩
    refine hkeys1 c hc ?_
    rw [hca]
    exact ha1
  have hndapp2 : ((p.all_shares ++ L1.map (fun c => (c.1, c.2.2))).map Prod.fst).Nodup := by
    rw [List.map_append, key_eq2]
    refine List.Nodup.append hpnd2 hnd ?_
    intro a ha1 ha2
    rcases List.mem_map.mp ha2 with ⟨c, hc, hca⟩
    refine hkeys2 c hc ?_
    rw [hca]
    exact ha1
  have hperm1 : (p.all_comm_coeffs ++ L1.map (fun c => (c.1, c.2.1))).Perm
      (p.all_comm_coeffs ++ L2.map (fun c => (c.1, c.2.1))) :=
    (hperm.map _).append_left _
  have hperm2 : (p.all_shares ++ L1.map (fun c => (c.1, c.2.2))).Perm
      (p.all_shares ++ L2.map (fun c => (c.1, c.2.2))) :=
    (hperm.map _).append_left _
  exact compute_final_congr _ _ threshold total g h rfl rfl rfl rfl rfl
    hperm1.length_eq hperm2.length_eq
    (lk_of_perm hperm1 hndapp1) (lk_of_perm hperm2 hndapp2)

end VerifySpec

/-! ### Concrete evaluations of the claim theorems (witnesses) -/

theorem shamir_reconstruct_any_k_subset_witness :
    reconstruct_secret 1 [(1, (5 : ZMod 11))]
      = some (get_shared_secret 1 1 (⟨[5]⟩ : Polynomial 11)).1 :=
  shamir_reconstruct_any_k_subset 1 1 (le_refl 1) (le_refl 1) (by decide)
    ⟨[5]⟩ rfl [(1, 5)] (by decide) (by decide) rfl

theorem pedersen_vss_deal_valid_witness :
    (PedersenVSS.deal 1 1 (2 : ZMod 11) 3 (⟨[4]⟩ : Polynomial 11) ⟨[6]⟩).2.2.1.length = 1
    ∧ (PedersenVSS.deal 1 1 (2 : ZMod 11) 3 (⟨[4]⟩ : Polynomial 11) ⟨[6]⟩).2.2.2.1.length = 1
    ∧ (PedersenVSS.deal 1 1 (2 : ZMod 11) 3 (⟨[4]⟩ : Polynomial 11) ⟨[6]⟩).2.2.2.2.length = 1
    ∧ ∀ i, 1 ≤ i → i ≤ 1 →
        ∃ si ti,
          lk (PedersenVSS.deal 1 1 (2 : ZMod 11) 3
              (⟨[4]⟩ : Polynomial 11) ⟨[6]⟩).2.2.2.1 i = some si
          ∧ lk (PedersenVSS.deal 1 1 (2 : ZMod 11) 3
              (⟨[4]⟩ : Polynomial 11) ⟨[6]⟩).2.2.2.2 i = some ti
          ∧ PedersenVSS.verify_share 1 i (si, ti)
              (PedersenVSS.deal 1 1 (2 : ZMod 11) 3
                (⟨[4]⟩ : Polynomial 11) ⟨[6]⟩).2.2.1 (2 : ZMod 11) 3
            = some true :=
  pedersen_vss_deal_valid 1 1 2 3 ⟨[4]⟩ ⟨[6]⟩ (le_refl 1) (le_refl 1) rfl rfl

theorem verify_share_equation_witness :
    PedersenVSS.verify_share 1 1 ((4 : ZMod 11), 0) [(0, (4 : ZMod 11))] 1 0 = some true
      ↔ ∑ j in Finset.range 1, (((1 : ℕ) : ZMod 11)) ^ j • (fun _ : ℕ => (4 : ZMod 11)) j
          = (4 : ZMod 11) • (1 : ZMod 11) + (0 : ZMod 11) • (0 : ZMod 11) :=
  verify_share_equation 1 1 4 0 [(0, 4)] 1 0 (fun _ => 4) (le_refl 1) (by decide) (by decide)

theorem dvss_aggregation_formulas_witness :
    ∃ p2, pW4.compute_final_comm_coeffs_and_shares 1 2 (1 : ZMod 11) 0 = some p2
      ∧ p2.secret_share = 9 := by
  have hpeer : ∀ j, 1 ≤ j → j ≤ 2 → j ≠ pW4.id →
      ∃ m, lk pW4.all_comm_coeffs j = some m
        ∧ ∀ i, i < 1 → lk m i = some ((fun _ _ => (5 : ZMod 11)) j i) := by
    intro j h1 h2 hne
    have hid : pW4.id = 1 := rfl
    rw [hid] at hne
    have hj : j = 2 := by omega
    subst hj
    exact ⟨[(0, 5)], rfl, by decide⟩
  have hpeersh : ∀ j, 1 ≤ j → j ≤ 2 → j ≠ pW4.id →
      lk pW4.all_shares j
        = some ((fun _ : ℕ => (5 : ZMod 11)) j, (fun _ : ℕ => (0 : ZMod 11)) j) := by
    intro j h1 h2 hne
    have hid : pW4.id = 1 := rfl
    rw [hid] at hne
    have hj : j = 2 := by omega
    subst hj
    rfl
  have hverp : ∀ j, 1 ≤ j → j ≤ 2 → j ≠ pW4.id →
      ∑ i in Finset.range 1, ((pW4.id : ZMod 11)) ^ i • (fun _ _ => (5 : ZMod 11)) j i
        = (fun _ : ℕ => (5 : ZMod 11)) j • (1 : ZMod 11)
          + (fun _ : ℕ => (0 : ZMod 11)) j • (0 : ZMod 11) := by
    intro j _ _ _
    show ∑ i in Finset.range 1, ((pW4.id : ZMod 11)) ^ i • (5 : ZMod 11)
      = (5 : ZMod 11) • (1 : ZMod 11) + (0 : ZMod 11) • (0 : ZMod 11)
    decide
  obtain ⟨p2, h1, h2, h3⟩ := dvss_aggregation_formulas pW4 1 2 (1 : ZMod 11) 0
    (fun _ => 4) (fun _ _ => 5) 4 0 (fun _ => 5) (fun _ => 0)
    (le_refl 1) (by decide) rfl rfl rfl hpeer hpeersh (by decide) rfl rfl (by decide) hverp
  refine ⟨p2, h1, ?_⟩
  rw [h3]
  decide

theorem dvss_order_independence_witness :
    ∃ p1 p2,
      L5a.foldlM (fun st c => st.received_share c.1 c.2.1 c.2.2 1 3 (1 : ZMod 11) 0) pW5
        = some p1
      ∧ L5b.foldlM (fun st c => st.received_share c.1 c.2.1 c.2.2 1 3 (1 : ZMod 11) 0) pW5
        = some p2
      ∧ Option.map (fun r => (r.final_comm_coeffs, r.secret_share))
          (p1.compute_final_comm_coeffs_and_shares 1 3 (1 : ZMod 11) 0)
        = Option.map (fun r => (r.final_comm_coeffs, r.secret_share))
          (p2.compute_final_comm_coeffs_and_shares 1 3 (1 : ZMod 11) 0) :=
  dvss_order_independence pW5 1 3 1 0 L5a L5b (List.Perm.swap _ _ _) rfl (by decide)
    (by decide) (by decide) (by decide)

theorem reconstruct_first_k_formula_witness :
    reconstruct_secret 2 [(3, (7 : ZMod 11)), (1, 2), (2, 9)]
      = some (∑ i in (([(3, (7 : ZMod 11)), (1, 2), (2, 9)].take 2).map Prod.fst).toFinset,
          Polynomial.lagrange_basis_at_0 11
              (([(3, (7 : ZMod 11)), (1, 2), (2, 9)].take 2).map Prod.fst) i
            * (lk [(3, (7 : ZMod 11)), (1, 2), (2, 9)] i).getD 0) :=
  reconstruct_first_k_formula 2 [(3, 7), (1, 2), (2, 9)] (by decide) (by decide)

theorem received_share_atomic_witness :
    pW5.received_share 2 [(0, (6 : ZMod 11))] (5, 0) 1 2 (1 : ZMod 11) 0 = none
    ∧ pW5.received_share 2 [(0, (5 : ZMod 11))] (5, 0) 1 2 (1 : ZMod 11) 0
      = some { pW5 with
          all_comm_coeffs := pW5.all_comm_coeffs ++ [(2, [(0, (5 : ZMod 11))])]
          all_shares := pW5.all_shares ++ [(2, ((5 : ZMod 11), 0))] } :=
  ⟨(received_share_atomic pW5 2 [(0, 6)] (5, 0) 1 2 1 0).1 (by decide),
   (received_share_atomic pW5 2 [(0, 5)] (5, 0) 1 2 1 0).2 (by decide) (by decide) rfl rfl⟩

theorem lagrange_basis_at_0_formula_witness :
    Polynomial.lagrange_basis_at_0 11 [1, 2] 1
      = ∏ x in ([1, 2] : List ℕ).toFinset.erase 1,
          ((x : ZMod 11) / ((x : ZMod 11) - ((1 : ℕ) : ZMod 11)))
    ∧ ∀ x ∈ ([1, 2] : List ℕ).toFinset.erase 1,
        ((x : ZMod 11) - ((1 : ℕ) : ZMod 11)) ≠ 0 :=
  lagrange_basis_at_0_formula [1, 2] 1 (by decide) (by decide) (by decide) (by decide)

theorem verify_share_requires_dense_keys_witness :
    PedersenVSS.verify_share 1 1 ((0 : ZMod 11), 0) [(5, (3 : ZMod 11))] 1 0 = none :=
  (verify_share_requires_dense_keys 1 1 (0, 0) [(5, 3)] 1 0 (by decide)).1
    ⟨0, by decide, by decide⟩

theorem secret_share_zero_before_finalization_witness :
    (PedersenDVSSParticipant.new 3 1 2 (1 : ZMod 11) 0 ⟨[4]⟩ ⟨[0]⟩
        : PedersenDVSSParticipant 11 (ZMod 11)).secret_share = 0
    ∧ (⟨1, 0, [(0, (4 : ZMod 11))], [(1, 4)], [(1, 0)], [(2, [(0, 5)])], [(2, (5, 0))], [], 0⟩
        : PedersenDVSSParticipant 11 (ZMod 11)).secret_share = pW5.secret_share :=
  secret_share_zero_before_finalization 3 1 2 1 0 ⟨[4]⟩ ⟨[0]⟩ pW5
    ⟨1, 0, [(0, 4)], [(1, 4)], [(1, 0)], [(2, [(0, 5)])], [(2, (5, 0))], [], 0⟩
    2 [(0, 5)] (5, 0) rfl

end SecretSharing
